import Mathlib

/-!
Verification of the effect-tree library core against its specification.

The development shallowly embeds the library's rose-tree data model and the
operations referenced by the specification:

* `TreeF` / `Tree` — the one-level tree shape and its fixpoint
  (src/media/index.ts, src/media/index-1.ts).  The source discriminates
  leaf from branch by presence of the `forest` key; here the two record
  shapes are the two constructors.  `branchF` mirrors the runtime
  behaviour of the source constructor, which attaches whatever forest it
  is given without an emptiness check (non-emptiness is only a static
  type in the source).
* catamorphism runners `treeCata` / `treeCataEffect` / `treeCataCount` —
  the generic fold engine lives outside the covered sources (a schemes
  module), so these are modelled from the spec, section 4.3.
* counting folds (src/media/counts.ts), the monad flatten
  (src/media/index-1.ts), ordered effectful traversal
  (src/media/Traversable.ts), depth labelling (src/media/levels.ts),
  equivalence and order instances, and zip.

Effects are modelled as the spec's design notes direct: the
success-or-failure channel as `Except`, and effect sequencing for the
traversal-order claims as a writer log of executed per-node effects.
-/

namespace EffectTree

set_option autoImplicit false

/-- One-level tree shape, from src/media/index.ts: a node value with either
no `forest` key (leaf shape) or a `forest` of carrier values (branch
shape).  `branchF` is the runtime constructor: it attaches the given
forest unconditionally, with no emptiness check. -/
inductive TreeF (α : Type) (C : Type) : Type where
  | leafF : α → TreeF α C
  | branchF : α → List C → TreeF α C

/-- The fixed recursive tree, src/media/index-1.ts: `Tree` wraps
`TreeF` with the carrier instantiated to `Tree` itself. -/
inductive Tree (α : Type) : Type where
  | leaf : α → Tree α
  | branch : α → List (Tree α) → Tree α

/-- `TreeF.match` from src/media/index.ts, the total dispatch primitive
(`match` is a reserved word here, hence the name `matchF`).  The source
passes the two continuations as a `{onLeaf, onBranch}` record; they are
two arguments here. -/
def matchF {α C R : Type} (onLeaf : α → R) (onBranch : α → List C → R) :
    TreeF α C → R
  | .leafF value => onLeaf value
  | .branchF value forest => onBranch value forest

/-- `leafF` from src/media/index.ts. -/
def leafF {α C : Type} (value : α) : TreeF α C := TreeF.leafF value

/-- `branchF` from src/media/index.ts: builds the branch shape from a value
and the given forest, unconditionally. -/
def branchF {α C : Type} (value : α) (forest : List C) : TreeF α C :=
  TreeF.branchF value forest

/-- `treeF` from src/media/index.ts: degrades to a leaf shape when the
forest is empty. -/
def treeF {α C : Type} (value : α) (forest : List C) : TreeF α C :=
  if forest.isEmpty then leafF value else branchF value forest

/-- `TreeF.isLeaf` from src/media/index.ts: true when the `forest` key is
absent. -/
def isLeafF {α C : Type} : TreeF α C → Bool
  | .leafF _ => true
  | .branchF _ _ => false

/-- `TreeF.isBranch` from src/media/index.ts. -/
def isBranchF {α C : Type} (self : TreeF α C) : Bool := !isLeafF self

/-- `TreeF.getValue` from src/media/index.ts. -/
def getValueF {α C : Type} : TreeF α C → α
  | .leafF value => value
  | .branchF value _ => value

/-- `TreeF.getForest` from src/media/index.ts: the forest, or the empty
sequence for a leaf shape. -/
def getForestF {α C : Type} : TreeF α C → List C
  | .leafF _ => []
  | .branchF _ forest => forest

/-- `TreeF.length` from src/media/index.ts: child count of one level. -/
def lengthF {α C : Type} : TreeF α C → Nat :=
  matchF (fun _ => 0) (fun _ forest => forest.length)

/-- `fixTree` from src/media/index-1.ts: converts the one-level shape with
`Tree` children into the recursive type. -/
def fixTree {α : Type} : TreeF α (Tree α) → Tree α
  | .leafF value => .leaf value
  | .branchF value forest => .branch value forest

/-- `unfixTree` from src/media/index-1.ts. -/
def unfixTree {α : Type} : Tree α → TreeF α (Tree α)
  | .leaf value => .leafF value
  | .branch value forest => .branchF value forest

/-- `leaf` from src/media/index-1.ts: `flow(leafF, fixTree)`. -/
def leaf {α : Type} (value : α) : Tree α := fixTree (leafF value)

/-- `branch` from src/media/index-1.ts: `fixBranch(branchF(value, forest))`.
Like `branchF` it performs no runtime emptiness check. -/
def branch {α : Type} (value : α) (forest : List (Tree α)) : Tree α :=
  fixTree (branchF value forest)

/-- `tree` from src/media/index-1.ts: a branch when the forest is
non-empty, otherwise a leaf. -/
def tree {α : Type} (value : α) (forest : List (Tree α)) : Tree α :=
  if forest.isEmpty then leaf value else branch value forest

/-- Tree-level `isLeaf` from src/media/index-1.ts. -/
def isLeaf {α : Type} (self : Tree α) : Bool := isLeafF (unfixTree self)

/-- Tree-level `isBranch` from src/media/index-1.ts. -/
def isBranch {α : Type} (self : Tree α) : Bool := !isLeaf self

/-- Tree-level `getValue` from src/media/index-1.ts:
`flow(unfixTree, getValueF)`. -/
def getValue {α : Type} (self : Tree α) : α := getValueF (unfixTree self)

/-- Tree-level `getForest`: the node's children, empty for a leaf. -/
def getForest {α : Type} (self : Tree α) : List (Tree α) :=
  getForestF (unfixTree self)

/-- `destruct` from src/media/index.ts lifted to trees: the node value
paired with the possibly empty forest. -/
def destruct {α : Type} (self : Tree α) : α × List (Tree α) :=
  matchF (fun value => (value, [])) (fun value forest => (value, forest))
    (unfixTree self)

mutual

/-- Modelled from the spec: `treeCata` (spec section 4.3), the generic
catamorphism runner, whose implementation lives in the schemes module
outside the covered sources.  Children are folded first, left to right,
their results substituted as the carrier, then the one-level folder is
applied at the current node. -/
def treeCata {α R : Type} (fold : TreeF α R → R) : Tree α → R
  | .leaf value => fold (leafF value)
  | .branch value forest => fold (branchF value (forestCata fold forest))

/-- Modelled from the spec: the forest part of `treeCata`, folding each
child in order. -/
def forestCata {α R : Type} (fold : TreeF α R → R) : List (Tree α) → List R
  | [] => []
  | t :: ts => treeCata fold t :: forestCata fold ts

end

mutual

/-- Modelled from the spec: `treeCataEffect` (spec sections 4.3 and 5),
the effect-aware catamorphism with the success-or-failure channel as
`Except`.  Children's effects are sequenced left to right, each child's
subtree fully resolved before the next; a failure short-circuits the
remaining siblings and every ancestor, and the one-level function runs
at the current node only after all children succeeded. -/
def treeCataEffect {α R ε : Type} (fold : TreeF α R → Except ε R) :
    Tree α → Except ε R
  | .leaf value => fold (leafF value)
  | .branch value forest =>
    match forestCataEffect fold forest with
    | .error e => .error e
    | .ok results => fold (branchF value results)

/-- Modelled from the spec: the forest part of `treeCataEffect`,
left-to-right with immediate failure propagation. -/
def forestCataEffect {α R ε : Type} (fold : TreeF α R → Except ε R) :
    List (Tree α) → Except ε (List R)
  | [] => .ok []
  | t :: ts =>
    match treeCataEffect fold t with
    | .error e => .error e
    | .ok r =>
      match forestCataEffect fold ts with
      | .error e => .error e
      | .ok rs => .ok (r :: rs)

end

mutual

/-- `treeCataEffect` instrumented exactly like the short-circuit test in
the counts test file: alongside the `Except` result it returns how many
times the one-level function was invoked (the test's `called` counter).
Sequencing is identical to `treeCataEffect`. -/
def treeCataCount {α R ε : Type} (fold : TreeF α R → Except ε R) :
    Tree α → Except ε R × Nat
  | .leaf value => (fold (leafF value), 1)
  | .branch value forest =>
    match forestCataCount fold forest with
    | (.error e, n) => (.error e, n)
    | (.ok results, n) => (fold (branchF value results), n + 1)

/-- Forest part of `treeCataCount`: invocation counts of the children
evaluated so far add up; siblings after a failure contribute nothing. -/
def forestCataCount {α R ε : Type} (fold : TreeF α R → Except ε R) :
    List (Tree α) → Except ε (List R) × Nat
  | [] => (.ok [], 0)
  | t :: ts =>
    match treeCataCount fold t with
    | (.error e, n) => (.error e, n)
    | (.ok r, n) =>
      match forestCataCount fold ts with
      | (.error e, m) => (.error e, n + m)
      | (.ok rs, m) => (.ok (r :: rs), n + m)

end

/-- `Math.max` spread over a list of naturals, as used by the height and
degree folds of src/media/counts.ts (the folds only ever spread it over
the non-empty forests of branches, where it is the maximum element). -/
def maxAll (l : List Nat) : Nat := l.foldr max 0

/-- `descendantCountFold` from src/media/counts.ts. -/
def descendantCountFold {α : Type} : TreeF α Nat → Nat :=
  matchF (fun _ => 1) (fun _ forest => forest.sum + 1)

/-- `maximumHeightFold` from src/media/counts.ts. -/
def maximumHeightFold {α : Type} : TreeF α Nat → Nat :=
  matchF (fun _ => 1) (fun _ forest => maxAll forest + 1)

/-- `maximumDegreeFold` from src/media/counts.ts:
`Math.max(forest.length, ...forest)`. -/
def maximumDegreeFold {α : Type} : TreeF α Nat → Nat :=
  matchF (fun _ => 0) (fun _ forest => forest.foldr max forest.length)

/-- `nodeCount` from src/media/counts.ts. -/
def nodeCount {α : Type} : Tree α → Nat := treeCata descendantCountFold

/-- `maximumNodeHeight` from src/media/counts.ts. -/
def maximumNodeHeight {α : Type} : Tree α → Nat := treeCata maximumHeightFold

/-- `maximumNodeDegree` from src/media/counts.ts. -/
def maximumNodeDegree {α : Type} : Tree α → Nat := treeCata maximumDegreeFold

/-- `nodeCountAtLeastFold` from src/media/counts.ts: fails (with the
source's empty object, here `Unit`) if the node count at this level
reaches the threshold.  The threshold is a plain JS number, embedded as
`Int`. -/
def nodeCountAtLeastFold {α : Type} (atLeast : Int) (self : TreeF α Nat) :
    Except Unit Nat :=
  let n := descendantCountFold self
  if atLeast ≤ (n : Int) then .error () else .ok n

/-- `nodeCountAtLeast` from src/media/counts.ts: runs the effect-aware
catamorphism and maps failure to `true`, success to `false`. -/
def nodeCountAtLeast {α : Type} (atLeast : Int) (self : Tree α) : Bool :=
  match treeCataEffect (nodeCountAtLeastFold atLeast) self with
  | .error _ => true
  | .ok _ => false

/-- `flattenFold` from src/media/index-1.ts (Monad section): a leaf-shaped
outer node yields its contained tree unchanged; a branch-shaped outer
node is replaced by a branch holding the contained tree's root value over
the outer node's (already flattened) children. -/
def flattenFold {α : Type} : TreeF (Tree α) (Tree α) → Tree α :=
  matchF (fun node => node)
    (fun node forest => branch (getValue node) forest)

/-- `flatten` from src/media/index-1.ts: the catamorphism of
`flattenFold`. -/
def flatten {α : Type} : Tree (Tree α) → Tree α := treeCata flattenFold

/-- The two depth-first orders of src/media/Traversable.ts. -/
inductive DepthFirst : Type where
  | pre
  | post

mutual

/-- `orderedTraverseEffect` from src/media/Traversable.ts, with the
per-node effect modelled as a writer: `f` returns the log of effects it
executes together with its result, and sequencing two effects
concatenates their logs in execution order.  A leaf runs the node's
effect and wraps the result in a leaf.  A branch in `post` mode runs the
children (via `Effect.forEach`, left to right) and then the node's
effect; in `pre` mode the node's effect runs first.  The result tree is
rebuilt with the `tree` constructor, as `treeK` does. -/
def orderedTraverseEffect {α β τ : Type} (order : DepthFirst)
    (f : α → List τ × β) : Tree α → List τ × Tree β
  | .leaf value =>
    let wb := f value
    (wb.1, leaf wb.2)
  | .branch value forest =>
    match order with
    | .post =>
      let wf := orderedForestTraverse DepthFirst.post f forest
      let wv := f value
      (wf.1 ++ wv.1, tree wv.2 wf.2)
    | .pre =>
      let wv := f value
      let wf := orderedForestTraverse DepthFirst.pre f forest
      (wv.1 ++ wf.1, tree wv.2 wf.2)

/-- `Effect.forEach(run)` over a forest: children left to right, each
child's subtree fully resolved (its whole log emitted) before the next
sibling begins. -/
def orderedForestTraverse {α β τ : Type} (order : DepthFirst)
    (f : α → List τ × β) : List (Tree α) → List τ × List (Tree β)
  | [] => ([], [])
  | t :: ts =>
    let wb := orderedTraverseEffect order f t
    let ws := orderedForestTraverse order f ts
    (wb.1 ++ ws.1, wb.2 :: ws.2)

end

/-- `traverseEffect` from src/media/Traversable.ts: the source assigns
`orderedTraverseEffect('pre')` as the function itself. -/
def traverseEffect {α β τ : Type} : (α → List τ × β) → Tree α →
    List τ × Tree β :=
  orderedTraverseEffect DepthFirst.pre

/-- `traverseEffect.post` from src/media/Traversable.ts. -/
def traverseEffectPost {α β τ : Type} : (α → List τ × β) → Tree α →
    List τ × Tree β :=
  orderedTraverseEffect DepthFirst.post

mutual

/-- Node values in depth-first pre-order: parent first, then the children's
subtrees left to right. -/
def preorderValues {α : Type} : Tree α → List α
  | .leaf value => [value]
  | .branch value forest => value :: preorderForestValues forest

/-- Forest part of `preorderValues`. -/
def preorderForestValues {α : Type} : List (Tree α) → List α
  | [] => []
  | t :: ts => preorderValues t ++ preorderForestValues ts

end

mutual

/-- Node values in depth-first post-order: the children's subtrees left to
right, then the parent. -/
def postorderValues {α : Type} : Tree α → List α
  | .leaf value => [value]
  | .branch value forest => postorderForestValues forest ++ [value]

/-- Forest part of `postorderValues`. -/
def postorderForestValues {α : Type} : List (Tree α) → List α
  | [] => []
  | t :: ts => postorderValues t ++ postorderForestValues ts

end

/-- The writer log produced by running the per-node effect `f` once for
each value of a list, in list order. -/
def effectLog {α τ β : Type} (f : α → List τ × β) : List α → List τ
  | [] => []
  | a :: as => (f a).1 ++ effectLog f as

/-- `annotateDepthUnfold` from src/media/levels.ts: one unfold step pairs
the node with `previousDepth + 1` and seeds each child with that same
depth. -/
def annotateDepthUnfold {α : Type} (seed : Tree α × Nat) :
    TreeF (α × Nat) (Tree α × Nat) :=
  let depth := seed.2 + 1
  match seed.1 with
  | .leaf value => leafF (value, depth)
  | .branch value nodes =>
    branchF (value, depth) (nodes.map fun node => (node, depth))

mutual

/-- Modelled from the spec: the anamorphism runner `treeAna` (spec section
4.3; its implementation lives in the schemes module outside the covered
sources) applied to `annotateDepthUnfold`, specialized so that recursion
is structural on the seed's tree component.  The theorem
`annotateDepthAna_unfold_step` certifies that it satisfies the
anamorphism computation rule for the source's unfolder. -/
def annotateDepthAna {α : Type} : Tree α → Nat → Tree (α × Nat)
  | .leaf value, previousDepth => leaf (value, previousDepth + 1)
  | .branch value nodes, previousDepth =>
    branch (value, previousDepth + 1)
      (annotateDepthForest nodes (previousDepth + 1))

/-- Forest part of `annotateDepthAna`: unfolds each child seed in order. -/
def annotateDepthForest {α : Type} : List (Tree α) → Nat →
    List (Tree (α × Nat))
  | [], _ => []
  | t :: ts, depth => annotateDepthAna t depth :: annotateDepthForest ts depth

end

/-- `annotateDepth` from src/media/levels.ts:
`treeAna(annotateDepthUnfold)([self, 0])`. -/
def annotateDepth {α : Type} (self : Tree α) : Tree (α × Nat) :=
  annotateDepthAna self 0

mutual

/-- `getEquivalenceEffect` from the Equivalence instance source: destructs
both trees, fails on a value mismatch or a forest-length mismatch, and
otherwise recurses pairwise into the zipped forests (success for a leaf,
whose destructed forest is empty).  Success encodes equality; failure
(the source's empty object, here `Unit`) encodes a mismatch. -/
def getEquivalenceEffect {α : Type} (equalsA : α → α → Bool) :
    Tree α → Tree α → Except Unit Unit
  | .leaf selfValue, that =>
    if equalsA selfValue (destruct that).1 = false
        ∨ 0 ≠ (destruct that).2.length then .error ()
    else .ok ()
  | .branch selfValue selfForest, that =>
    if equalsA selfValue (destruct that).1 = false
        ∨ selfForest.length ≠ (destruct that).2.length then .error ()
    else forestEquivalenceEffect equalsA selfForest (destruct that).2

/-- `Effect.forEach` of `getEquivalenceEffect` over `Array.zip` of the two
forests: pairwise left to right, short-circuiting on the first mismatch,
truncating at the shorter list (the lengths are equal whenever the guard
above has passed). -/
def forestEquivalenceEffect {α : Type} (equalsA : α → α → Bool) :
    List (Tree α) → List (Tree α) → Except Unit Unit
  | s :: ss, t :: ts =>
    match getEquivalenceEffect equalsA s t with
    | .error e => .error e
    | .ok _ => forestEquivalenceEffect equalsA ss ts
  | _, _ => .ok ()

end

/-- `getEquivalence` from the Equivalence instance source: runs the effect
and maps failure to `false`, success to `true`. -/
def getEquivalence {α : Type} (equalsA : α → α → Bool)
    (self that : Tree α) : Bool :=
  match getEquivalenceEffect equalsA self that with
  | .error _ => false
  | .ok _ => true

mutual

/-- `getOrderEffect` from the Order instance source.  Success encodes
equality; failure carries `-1` or `1` (or the non-zero element
comparison).  Two leaves compare by value alone; a leaf against a branch
fails with `-1`, a branch against a leaf with `1`; two branches compare
by value, then by forest length, then pairwise over the zipped
forests. -/
def getOrderEffect {α : Type} (orderA : α → α → Int) :
    Tree α → Tree α → Except Int Unit
  | .leaf selfValue, .leaf thatValue =>
    let valueOrder := orderA selfValue thatValue
    if valueOrder = 0 then .ok () else .error valueOrder
  | .leaf _, .branch _ _ => .error (-1)
  | .branch _ _, .leaf _ => .error 1
  | .branch selfValue selfForest, .branch thatValue thatForest =>
    let valueOrder := orderA selfValue thatValue
    if valueOrder ≠ 0 then .error valueOrder
    else if selfForest.length < thatForest.length then .error (-1)
    else if thatForest.length < selfForest.length then .error 1
    else forestOrderEffect orderA selfForest thatForest

/-- `Effect.forEach` of `getOrderEffect` over `Array.zip` of the two
forests: pairwise left to right, the first failing (non-equal) pair
deciding the result, truncating at the shorter list (the lengths are
equal whenever the guards above have passed). -/
def forestOrderEffect {α : Type} (orderA : α → α → Int) :
    List (Tree α) → List (Tree α) → Except Int Unit
  | s :: ss, t :: ts =>
    match getOrderEffect orderA s t with
    | .error e => .error e
    | .ok _ => forestOrderEffect orderA ss ts
  | _, _ => .ok ()

end

/-- `getOrder` from the Order instance source: runs the effect and maps
success to `0`, failure to its `-1 | 1` payload. -/
def getOrder {α : Type} (orderA : α → α → Int) (self that : Tree α) : Int :=
  match getOrderEffect orderA self that with
  | .ok _ => 0
  | .error e => e

/-- Negate the failure payload of an order effect; used to state that
swapping the compared trees flips the comparison. -/
def negExcept : Except Int Unit → Except Int Unit
  | .ok _ => .ok ()
  | .error e => .error (-e)

/-- The first non-zero entry of a list of comparison results (zero when
all entries are zero): the "first non-equal element decides"
lexicographic rule of the specification. -/
def firstNonZero : List Int → Int
  | [] => 0
  | x :: xs => if x = 0 then firstNonZero xs else x

mutual

/-- `zipWithEffect` from the zip source, which only ever uses the success
channel, so it is embedded as a pure function: the two root values are
combined by `f`; if either side is a leaf the result is that leaf; two
branches recurse pairwise over the zipped forests and rebuild with the
`tree` constructor. -/
def zipWithEffect {α β γ : Type} (f : α → β → γ) :
    Tree α → Tree β → Tree γ
  | .leaf selfValue, that => leaf (f selfValue (getValue that))
  | .branch selfValue _, .leaf thatValue => leaf (f selfValue thatValue)
  | .branch selfValue selfForest, .branch thatValue thatForest =>
    tree (f selfValue thatValue)
      (zipForestWithEffect f selfForest thatForest)

/-- `Effect.forEach` of the zip over `Array.zip` of the two forests:
pairwise, truncating at the shorter list. -/
def zipForestWithEffect {α β γ : Type} (f : α → β → γ) :
    List (Tree α) → List (Tree β) → List (Tree γ)
  | s :: ss, t :: ts => zipWithEffect f s t :: zipForestWithEffect f ss ts
  | _, _ => []

end

/-- `zipWith` from the zip source: `Effect.runSync(zipWithEffect(f)(...))`. -/
def zipWith {α β γ : Type} (self : Tree α) (that : Tree β)
    (f : α → β → γ) : Tree γ :=
  zipWithEffect f self that

/-- `zip` from the zip source: `zipWith` pairing the two values. -/
def zip {α β : Type} (self : Tree α) (that : Tree β) : Tree (α × β) :=
  zipWith self that fun a b => (a, b)

/-- A concrete total order on naturals (comparison result as `-1 | 0 | 1`)
used to instantiate the order-law theorems. -/
def natOrd (a b : Nat) : Int := if a < b then -1 else if b < a then 1 else 0

/-- A concrete equivalence on naturals used to instantiate the
equivalence-law theorems. -/
def natEq (a b : Nat) : Bool := a == b

/-- Structural induction for the nested `Tree` type: to prove a property
of every tree it suffices to prove it for leaves and for branches given
it for every child. -/
def Tree.inductionOn {α : Type} {p : Tree α → Prop}
    (hl : ∀ a, p (Tree.leaf a))
    (hb : ∀ a ts, (∀ t ∈ ts, p t) → p (Tree.branch a ts)) :
    ∀ t, p t
  | .leaf a => hl a
  | .branch a ts => hb a ts fun u hu => Tree.inductionOn hl hb u
termination_by t => sizeOf t
decreasing_by
  have h := List.sizeOf_lt_of_mem hu
  simp only [Tree.branch.sizeOf_spec]
  omega

/-- The numeric fixture of the spec's concrete scenario (11 nodes, root 1,
branches 2 and 6, node 11 with single child 9, leaf 10), the `numericTree`
used by the counts tests. -/
def numericTree : Tree Nat :=
  branch 1
    [branch 2 [leaf 3, leaf 4, leaf 5],
     branch 6 [leaf 7, leaf 8, branch 11 [leaf 9]],
     leaf 10]

theorem forestCata_eq_map {α R : Type} (fold : TreeF α R → R) :
    ∀ ts : List (Tree α), forestCata fold ts = ts.map (treeCata fold)
  | [] => rfl
  | t :: ts => by rw [forestCata, List.map_cons, forestCata_eq_map]

theorem nodeCount_leaf {α : Type} (a : α) : nodeCount (leaf a) = 1 := rfl

theorem nodeCount_branch {α : Type} (a : α) (ts : List (Tree α)) :
    nodeCount (Tree.branch a ts) = (ts.map nodeCount).sum + 1 := by
  show descendantCountFold (branchF a (forestCata descendantCountFold ts))
      = (ts.map nodeCount).sum + 1
  rw [forestCata_eq_map]
  rfl

theorem nodeCount_pos {α : Type} (t : Tree α) : 1 ≤ nodeCount t := by
  cases t with
  | leaf a => exact le_refl 1
  | branch a ts => rw [nodeCount_branch]; omega

theorem nodeCount_child_le_sum {α : Type} {ts : List (Tree α)} {c : Tree α}
    (hc : c ∈ ts) : nodeCount c ≤ (ts.map nodeCount).sum :=
  List.single_le_sum (fun x _ => Nat.zero_le x) _ (List.mem_map_of_mem nodeCount hc)

/-- C8: for every tree `t`, `nodeCount t ≥ 1` and `nodeCount t` is one more
than the sum of `nodeCount` over the children of `t`'s forest; a leaf has
`nodeCount = 1`, `maximumNodeHeight = 1` and `maximumNodeDegree = 0`. -/
theorem count_invariants {α : Type} :
    (∀ t : Tree α, 1 ≤ nodeCount t) ∧
    (∀ t : Tree α, nodeCount t = 1 + ((getForest t).map nodeCount).sum) ∧
    (∀ a : α, nodeCount (leaf a) = 1) ∧
    (∀ a : α, maximumNodeHeight (leaf a) = 1) ∧
    (∀ a : α, maximumNodeDegree (leaf a) = 0) := by
  refine ⟨nodeCount_pos, ?_, fun _ => rfl, fun _ => rfl, fun _ => rfl⟩
  intro t
  cases t with
  | leaf a => rfl
  | branch a ts =>
    rw [nodeCount_branch]
    show (ts.map nodeCount).sum + 1 = 1 + (ts.map nodeCount).sum
    omega

/-- C1: `flatten` keeps an outer leaf's contained tree unchanged and
replaces an outer branch by a branch holding the contained tree's root
value over the flattened outer children, discarding the contained tree's
own forest; in particular the inner child of
`branch(branch(x, [innerChild]), [leaf child1, leaf child2])` is
discarded, not merged. -/
theorem flatten_spec {α : Type} :
    (∀ inner : Tree α, flatten (leaf inner) = inner) ∧
    (∀ (inner : Tree α) (childSubtrees : List (Tree (Tree α))),
       flatten (branch inner childSubtrees)
         = branch (getValue inner) (childSubtrees.map flatten)) ∧
    (∀ (x : α) (innerChild child1 child2 : Tree α),
       flatten (branch (branch x [innerChild]) [leaf child1, leaf child2])
         = branch x [child1, child2]) := by
  refine ⟨fun _ => rfl, ?_, fun x ic c1 c2 => rfl⟩
  intro inner childSubtrees
  show flattenFold (branchF inner (forestCata flattenFold childSubtrees))
      = branch (getValue inner) (childSubtrees.map flatten)
  rw [forestCata_eq_map]
  rfl

/-- C4 counterexample: `branch` (and `branchF`) applied to an empty forest
raise no error and return a branch-shaped value whose forest is empty,
contradicting the claim that the call fails and that no branch-shaped
value with an empty forest is ever returned. -/
theorem branch_empty_forest_counterexample :
    isBranch (branch (0 : Nat) []) = true ∧
    getForest (branch (0 : Nat) []) = [] ∧
    isBranchF (branchF (0 : Nat) ([] : List Nat)) = true ∧
    getForestF (branchF (0 : Nat) ([] : List Nat)) = [] :=
  ⟨rfl, rfl, rfl, rfl⟩

/-- C4 amended: `branch` and `branchF` perform no runtime emptiness check:
for every forest, including the empty one, they return a branch-shaped
value holding exactly the given forest and raise no error (exclusion of
empty branches is enforced only by the static non-empty type); only
`tree` and `treeF` degrade an empty forest to a leaf. -/
theorem branch_no_runtime_check {α C : Type} :
    (∀ (value : α) (forest : List (Tree α)),
       isBranch (branch value forest) = true ∧
       getForest (branch value forest) = forest) ∧
    (∀ (value : α) (forest : List C),
       isBranchF (branchF value forest) = true ∧
       getForestF (branchF value forest) = forest) ∧
    (∀ value : α, tree value [] = leaf value) ∧
    (∀ value : α, treeF value ([] : List C) = leafF value) :=
  ⟨fun _ _ => ⟨rfl, rfl⟩, fun _ _ => ⟨rfl, rfl⟩, fun _ => rfl, fun _ => rfl⟩

theorem annotateDepthForest_eq_map {α : Type} (depth : Nat) :
    ∀ ts : List (Tree α),
      annotateDepthForest ts depth = ts.map fun c => annotateDepthAna c depth
  | [] => rfl
  | t :: ts => by
    rw [annotateDepthForest, List.map_cons, annotateDepthForest_eq_map]

/-- `annotateDepthAna` satisfies the anamorphism computation rule for the
source's `annotateDepthUnfold`: one unfold step at the seed, then the
runner mapped over the produced child seeds. -/
theorem annotateDepthAna_unfold_step {α : Type} (t : Tree α)
    (previousDepth : Nat) :
    annotateDepthAna t previousDepth =
      (match annotateDepthUnfold (t, previousDepth) with
       | .leafF v => leaf v
       | .branchF v seeds =>
         branch v (seeds.map fun s => annotateDepthAna s.1 s.2)) := by
  cases t with
  | leaf a => rfl
  | branch a ts =>
    show annotateDepthAna (Tree.branch a ts) previousDepth
        = branch (a, previousDepth + 1)
            ((ts.map fun node => (node, previousDepth + 1)).map
              fun s => annotateDepthAna s.1 s.2)
    rw [List.map_map, annotateDepthAna, annotateDepthForest_eq_map]
    rfl

/-- C3: the code pairs the root with depth `1`, not with its hop count `0`
as the claim (and the source's own doc comment, "paired with their hop
count from root") require: `annotateDepth` on the failing inputs below
annotates the root with `1` and each child with its parent's value plus
one. -/
theorem annotateDepth_root_is_one :
    annotateDepth (leaf (0 : Nat)) = leaf ((0 : Nat), 1) ∧
    annotateDepth (branch (0 : Nat) [leaf 1])
      = branch ((0 : Nat), 1) [leaf (1, 2)] ∧
    (∀ {α : Type} (t : Tree α), getValue (annotateDepth t) = (getValue t, 1)) := by
  refine ⟨rfl, rfl, ?_⟩
  intro α t
  cases t with
  | leaf a => rfl
  | branch a ts => rfl

theorem zipForestWithEffect_eq_map {α β γ : Type} (f : α → β → γ) :
    ∀ (ss : List (Tree α)) (ts : List (Tree β)),
      zipForestWithEffect f ss ts
        = (ss.zip ts).map fun p => zipWithEffect f p.1 p.2
  | [], _ => by cases ‹List (Tree β)› <;> rfl
  | _ :: _, [] => rfl
  | s :: ss, t :: ts => by
    rw [zipForestWithEffect, List.zip_cons_cons, List.map_cons,
      zipForestWithEffect_eq_map]

/-- C9: `zip` (and `zipWith`) pair position-wise and crop to the shape
intersection: wherever either side is a leaf the result is a leaf pairing
the two values there, branch forests are truncated pairwise to the
shorter list, and zipping a three-level branch tree with a single leaf
yields one leaf pairing the two root values. -/
theorem zip_crop_spec {α β γ : Type} :
    (∀ (f : α → β → γ) (a : α) (that : Tree β),
       zipWith (leaf a) that f = leaf (f a (getValue that))) ∧
    (∀ (f : α → β → γ) (a : α) (selfForest : List (Tree α)) (b : β),
       zipWith (branch a selfForest) (leaf b) f = leaf (f a b)) ∧
    (∀ (f : α → β → γ) (a : α) (b : β) (selfForest : List (Tree α))
       (thatForest : List (Tree β)),
       zipWith (branch a selfForest) (branch b thatForest) f
         = tree (f a b) ((selfForest.zip thatForest).map
             fun p => zipWith p.1 p.2 f)) ∧
    (∀ (ss : List (Tree α)) (ts : List (Tree β)),
       (ss.zip ts).length = min ss.length ts.length) ∧
    (∀ (self : Tree α) (that : Tree β),
       zip self that = zipWith self that fun a b => (a, b)) ∧
    (∀ (a b c : α) (x : β),
       zip (branch a [branch b [leaf c]]) (leaf x) = leaf (a, x)) := by
  refine ⟨fun _ _ _ => rfl, fun _ _ _ _ => rfl, ?_, ?_, fun _ _ => rfl,
    fun _ _ _ _ => rfl⟩
  · intro f a b selfForest thatForest
    show tree (f a b) (zipForestWithEffect f selfForest thatForest) = _
    rw [zipForestWithEffect_eq_map]
    rfl
  · intro ss ts
    exact List.length_zip ss ts

theorem forestNcalSpec {α : Type} (k : Int) :
    ∀ ts : List (Tree α),
      (∀ c ∈ ts, treeCataEffect (nodeCountAtLeastFold k) c =
        if k ≤ (nodeCount c : Int) then .error () else .ok (nodeCount c)) →
      forestCataEffect (nodeCountAtLeastFold k) ts =
        if ∃ c ∈ ts, k ≤ (nodeCount c : Int) then .error ()
        else .ok (ts.map nodeCount)
  | [], _ => by simp [forestCataEffect]
  | t :: ts, ih => by
    rw [forestCataEffect, ih t (List.mem_cons_self t ts),
      forestNcalSpec k ts fun c hc => ih c (List.mem_cons_of_mem t hc)]
    by_cases h1 : k ≤ (nodeCount t : Int)
    · simp [h1]
    · by_cases h2 : ∃ c ∈ ts, k ≤ (nodeCount c : Int)
      · simp [h1, h2]
      · simp [h1, h2]

theorem ncalSpec {α : Type} (k : Int) (t : Tree α) :
    treeCataEffect (nodeCountAtLeastFold k) t =
      if k ≤ (nodeCount t : Int) then .error () else .ok (nodeCount t) := by
  induction t using Tree.inductionOn with
  | hl a => rfl
  | hb a ts ih =>
    rw [treeCataEffect, forestNcalSpec k ts ih]
    by_cases h : ∃ c ∈ ts, k ≤ (nodeCount c : Int)
    · obtain ⟨c, hc, hkc⟩ := h
      have hle : nodeCount c ≤ nodeCount (Tree.branch a ts) := by
        rw [nodeCount_branch]
        have := nodeCount_child_le_sum hc
        omega
      rw [if_pos ⟨c, hc, hkc⟩, if_pos (le_trans hkc (by exact_mod_cast hle))]
    · rw [if_neg h]
      show nodeCountAtLeastFold k (branchF a (ts.map nodeCount)) = _
      rw [nodeCountAtLeastFold]
      rw [show descendantCountFold (branchF a (ts.map nodeCount))
          = nodeCount (Tree.branch a ts) from (nodeCount_branch a ts).symm]

/-- C10: the short-circuiting `nodeCountAtLeast(k)` agrees with the naive
`nodeCount(t) ≥ k` on every tree and every threshold. -/
theorem nodeCountAtLeast_agrees {α : Type} :
    ∀ (t : Tree α) (k : Int),
      nodeCountAtLeast k t = decide (k ≤ (nodeCount t : Int)) := by
  intro t k
  rw [nodeCountAtLeast, ncalSpec]
  by_cases h : k ≤ (nodeCount t : Int)
  · simp [h]
  · simp [h]

theorem forestCataCount_le {α R ε : Type} (f : TreeF α R → Except ε R) :
    ∀ ts : List (Tree α),
      (∀ c ∈ ts, (treeCataCount f c).2 ≤ nodeCount c) →
      (forestCataCount f ts).2 ≤ (ts.map nodeCount).sum
  | [], _ => by simp [forestCataCount]
  | t :: ts, ih => by
    have ht := ih t (List.mem_cons_self t ts)
    have hts := forestCataCount_le f ts fun c hc =>
      ih c (List.mem_cons_of_mem t hc)
    rcases hrt : treeCataCount f t with ⟨r, n⟩
    have hn : n ≤ nodeCount t := by rw [hrt] at ht; exact ht
    cases r with
    | error e => simp only [forestCataCount, hrt, List.map_cons, List.sum_cons]; omega
    | ok r =>
      rcases hrf : forestCataCount f ts with ⟨rs, m⟩
      have hm : m ≤ (ts.map nodeCount).sum := by rw [hrf] at hts; exact hts
      cases rs with
      | error e =>
        simp only [forestCataCount, hrt, hrf, List.map_cons, List.sum_cons]
        omega
      | ok rs =>
        simp only [forestCataCount, hrt, hrf, List.map_cons, List.sum_cons]
        omega

theorem treeCataCount_le {α R ε : Type} (f : TreeF α R → Except ε R) :
    ∀ t : Tree α, (treeCataCount f t).2 ≤ nodeCount t := by
  intro t
  induction t using Tree.inductionOn with
  | hl a => exact le_refl 1
  | hb a ts ih =>
    have hts := forestCataCount_le f ts ih
    rw [nodeCount_branch]
    rcases hrf : forestCataCount f ts with ⟨rs, m⟩
    have hm : m ≤ (ts.map nodeCount).sum := by rw [hrf] at hts; exact hts
    cases rs with
    | error e => simp only [treeCataCount, hrf]; omega
    | ok rs => simp only [treeCataCount, hrf]; omega

theorem forestCataCount_fst {α R ε : Type} (f : TreeF α R → Except ε R) :
    ∀ ts : List (Tree α),
      (∀ c ∈ ts, (treeCataCount f c).1 = treeCataEffect f c) →
      (forestCataCount f ts).1 = forestCataEffect f ts
  | [], _ => rfl
  | t :: ts, ih => by
    have ht := ih t (List.mem_cons_self t ts)
    have hts := forestCataCount_fst f ts fun c hc =>
      ih c (List.mem_cons_of_mem t hc)
    rcases hrt : treeCataCount f t with ⟨r, n⟩
    have h1 : treeCataEffect f t = r := by rw [← ht, hrt]
    cases r with
    | error e => simp [forestCataCount, forestCataEffect, hrt, h1]
    | ok r =>
      rcases hrf : forestCataCount f ts with ⟨rs, m⟩
      have h2 : forestCataEffect f ts = rs := by rw [← hts, hrf]
      cases rs with
      | error e => simp [forestCataCount, forestCataEffect, hrt, hrf, h1, h2]
      | ok rs => simp [forestCataCount, forestCataEffect, hrt, hrf, h1, h2]

theorem treeCataCount_fst {α R ε : Type} (f : TreeF α R → Except ε R) :
    ∀ t : Tree α, (treeCataCount f t).1 = treeCataEffect f t := by
  intro t
  induction t using Tree.inductionOn with
  | hl a => rfl
  | hb a ts ih =>
    have hts := forestCataCount_fst f ts ih
    rcases hrf : forestCataCount f ts with ⟨rs, m⟩
    have h2 : forestCataEffect f ts = rs := by rw [← hts, hrf]
    cases rs with
    | error e => simp [treeCataCount, treeCataEffect, hrf, h2]
    | ok rs => simp [treeCataCount, treeCataEffect, hrf, h2]

theorem treeCataCount_lt_of_child {α : Type} (k : Int) (t : Tree α)
    (h : ∃ c ∈ getForest t, k ≤ (nodeCount c : Int)) :
    (treeCataCount (nodeCountAtLeastFold k) t).2 < nodeCount t := by
  cases t with
  | leaf a => simp [getForest, unfixTree, getForestF] at h
  | branch a ts =>
    have h' : ∃ c ∈ ts, k ≤ (nodeCount c : Int) := h
    have herr : forestCataEffect (nodeCountAtLeastFold k) ts = .error () := by
      rw [forestNcalSpec k ts fun c _ => ncalSpec k c, if_pos h']
    have hfst : (forestCataCount (nodeCountAtLeastFold k) ts).1 = .error () := by
      rw [forestCataCount_fst (nodeCountAtLeastFold k) ts
        fun c _ => treeCataCount_fst (nodeCountAtLeastFold k) c, herr]
    have hle := forestCataCount_le (nodeCountAtLeastFold k) ts
      fun c _ => treeCataCount_le (nodeCountAtLeastFold k) c
    rw [nodeCount_branch]
    rcases hrf : forestCataCount (nodeCountAtLeastFold k) ts with ⟨rs, m⟩
    have hm : m ≤ (ts.map nodeCount).sum := by rw [hrf] at hle; exact hle
    rw [hrf] at hfst
    simp only at hfst
    rw [hfst] at hrf
    simp only [treeCataCount, hrf]
    omega

/-- C5 amended: the effect-aware catamorphism with `nodeCountAtLeastFold`
invokes the one-level function at most `n` times on an `n`-node tree
(once failure is signalled, the remaining siblings and unevaluated
descendants contribute no further invocations), and strictly fewer than
`n` times whenever some child subtree of the root already reaches the
threshold — but not in general for every `k < n`, since the failure can
occur only at the root's own invocation. -/
theorem shortCircuit_invocations {α : Type} (t : Tree α) (k : Int) :
    (treeCataCount (nodeCountAtLeastFold k) t).2 ≤ nodeCount t ∧
    ((∃ c ∈ getForest t, k ≤ (nodeCount c : Int)) →
      (treeCataCount (nodeCountAtLeastFold k) t).2 < nodeCount t) :=
  ⟨treeCataCount_le _ t, fun h => treeCataCount_lt_of_child k t h⟩

/-- Witness for the C5 theorem: the documented short-circuit scenario, the
11-node numeric tree with threshold 4, where the first child subtree
already has 4 nodes, so strictly fewer than 11 invocations happen. -/
theorem shortCircuit_invocations_witness :
    (treeCataCount (nodeCountAtLeastFold 4) numericTree).2
        ≤ nodeCount numericTree ∧
    (treeCataCount (nodeCountAtLeastFold 4) numericTree).2
        < nodeCount numericTree := by
  have h := shortCircuit_invocations numericTree 4
  exact ⟨h.1, h.2 ⟨branch 2 [leaf 3, leaf 4, leaf 5],
    List.mem_cons_self _ _, by decide⟩⟩

/-- C5 counterexample: a 5-node tree with threshold `k = 4 < 5` on which
the effect-aware catamorphism invokes the one-level function exactly 5
times (the failure happens only at the root's own invocation), refuting
"strictly fewer than n" as stated. -/
theorem shortCircuit_counterexample :
    (4 : Int) < (nodeCount
        (branch (0 : Nat) [branch 0 [leaf 0], branch 0 [leaf 0]]) : Int) ∧
    (treeCataCount (nodeCountAtLeastFold 4)
        (branch (0 : Nat) [branch 0 [leaf 0], branch 0 [leaf 0]])).2 = 5 ∧
    ¬((treeCataCount (nodeCountAtLeastFold 4)
        (branch (0 : Nat) [branch 0 [leaf 0], branch 0 [leaf 0]])).2
      < nodeCount (branch (0 : Nat) [branch 0 [leaf 0], branch 0 [leaf 0]])) := by
  refine ⟨by decide, by decide, by decide⟩

theorem effectLog_append {α τ β : Type} (f : α → List τ × β) :
    ∀ l1 l2 : List α,
      effectLog f (l1 ++ l2) = effectLog f l1 ++ effectLog f l2
  | [], l2 => rfl
  | a :: l1, l2 => by
    simp only [List.cons_append, effectLog, List.append_eq,
      effectLog_append f l1 l2, List.append_assoc]

theorem forestTraverse_pre_log {α β τ : Type} (f : α → List τ × β) :
    ∀ ts : List (Tree α),
      (∀ c ∈ ts, (orderedTraverseEffect DepthFirst.pre f c).1
        = effectLog f (preorderValues c)) →
      (orderedForestTraverse DepthFirst.pre f ts).1
        = effectLog f (preorderForestValues ts)
  | [], _ => rfl
  | t :: ts, ih => by
    simp only [orderedForestTraverse, preorderForestValues, effectLog_append]
    rw [ih t (List.mem_cons_self t ts),
      forestTraverse_pre_log f ts fun c hc => ih c (List.mem_cons_of_mem t hc)]

theorem traverse_pre_log {α β τ : Type} (f : α → List τ × β) (t : Tree α) :
    (orderedTraverseEffect DepthFirst.pre f t).1
      = effectLog f (preorderValues t) := by
  induction t using Tree.inductionOn with
  | hl a =>
    simp only [orderedTraverseEffect, preorderValues, effectLog,
      List.append_nil]
  | hb a ts ih =>
    simp only [orderedTraverseEffect, preorderValues, effectLog]
    rw [forestTraverse_pre_log f ts ih]

theorem forestTraverse_post_log {α β τ : Type} (f : α → List τ × β) :
    ∀ ts : List (Tree α),
      (∀ c ∈ ts, (orderedTraverseEffect DepthFirst.post f c).1
        = effectLog f (postorderValues c)) →
      (orderedForestTraverse DepthFirst.post f ts).1
        = effectLog f (postorderForestValues ts)
  | [], _ => rfl
  | t :: ts, ih => by
    simp only [orderedForestTraverse, postorderForestValues, effectLog_append]
    rw [ih t (List.mem_cons_self t ts),
      forestTraverse_post_log f ts fun c hc => ih c (List.mem_cons_of_mem t hc)]

theorem traverse_post_log {α β τ : Type} (f : α → List τ × β) (t : Tree α) :
    (orderedTraverseEffect DepthFirst.post f t).1
      = effectLog f (postorderValues t) := by
  induction t using Tree.inductionOn with
  | hl a =>
    simp only [orderedTraverseEffect, postorderValues, effectLog,
      List.append_nil]
  | hb a ts ih =>
    simp only [orderedTraverseEffect, postorderValues, effectLog_append,
      effectLog, List.append_nil]
    rw [forestTraverse_post_log f ts ih]

/-- C2 amended: the default `traverseEffect` is the pre-order runner —
its effect log is the pre-order value sequence (parent's effect first,
then the children's subtrees left to right, each fully resolved before
the next) — while the `post` variant's effect log is the post-order value
sequence (all children's effects, left to right, before the parent's). -/
theorem traverseEffect_order_spec {α β τ : Type} (f : α → List τ × β)
    (t : Tree α) :
    traverseEffect f t = orderedTraverseEffect DepthFirst.pre f t ∧
    (traverseEffect f t).1 = effectLog f (preorderValues t) ∧
    (traverseEffectPost f t).1 = effectLog f (postorderValues t) :=
  ⟨rfl, traverse_pre_log f t, traverse_post_log f t⟩

/-- C2 counterexample: on `branch 0 [leaf 1]` with a per-node effect that
logs the node value, the default `traverseEffect` produces the log
`[0, 1]` — the parent's effect runs before the child's — which differs
from the post-order log `[1, 0]` the claim requires (the latter is what
the `post` variant produces). -/
theorem traverseEffect_default_counterexample :
    (traverseEffect (fun n : Nat => ([n], n)) (branch 0 [leaf 1])).1
      = [0, 1] ∧
    (traverseEffectPost (fun n : Nat => ([n], n)) (branch 0 [leaf 1])).1
      = [1, 0] ∧
    ([0, 1] : List Nat) ≠ [1, 0] :=
  ⟨rfl, rfl, by decide⟩

theorem goe_leaf_leaf {α : Type} (orderA : α → α → Int) (a b : α) :
    getOrderEffect orderA (Tree.leaf a) (Tree.leaf b)
      = if orderA a b = 0 then .ok () else .error (orderA a b) := rfl

theorem goe_leaf_branch {α : Type} (orderA : α → α → Int) (a b : α)
    (us : List (Tree α)) :
    getOrderEffect orderA (Tree.leaf a) (Tree.branch b us) = .error (-1) := rfl

theorem goe_branch_leaf {α : Type} (orderA : α → α → Int) (a b : α)
    (ts : List (Tree α)) :
    getOrderEffect orderA (Tree.branch a ts) (Tree.leaf b) = .error 1 := rfl

theorem goe_branch_branch {α : Type} (orderA : α → α → Int) (a b : α)
    (ts us : List (Tree α)) :
    getOrderEffect orderA (Tree.branch a ts) (Tree.branch b us)
      = if orderA a b ≠ 0 then .error (orderA a b)
        else if ts.length < us.length then .error (-1)
        else if us.length < ts.length then .error 1
        else forestOrderEffect orderA ts us := rfl

theorem foe_nil_left {α : Type} (orderA : α → α → Int) (ts : List (Tree α)) :
    forestOrderEffect orderA [] ts = .ok () := by cases ts <;> rfl

theorem foe_nil_right {α : Type} (orderA : α → α → Int) (s : Tree α)
    (ss : List (Tree α)) :
    forestOrderEffect orderA (s :: ss) [] = .ok () := rfl

theorem foe_cons_cons {α : Type} (orderA : α → α → Int) (s t : Tree α)
    (ss ts : List (Tree α)) :
    forestOrderEffect orderA (s :: ss) (t :: ts)
      = match getOrderEffect orderA s t with
        | .error e => .error e
        | .ok _ => forestOrderEffect orderA ss ts := rfl

theorem foe_error_ne_zero {α : Type} (orderA : α → α → Int) :
    ∀ (ss ts : List (Tree α)) (e : Int),
      (∀ s ∈ ss, ∀ u e', getOrderEffect orderA s u = .error e' → e' ≠ 0) →
      forestOrderEffect orderA ss ts = .error e → e ≠ 0
  | [], ts, e, _, h => by rw [foe_nil_left] at h; exact absurd h (by simp)
  | s :: ss, [], e, _, h => by rw [foe_nil_right] at h; exact absurd h (by simp)
  | s :: ss, t :: ts, e, hm, h => by
    rw [foe_cons_cons] at h
    cases hg : getOrderEffect orderA s t with
    | error e' =>
      rw [hg] at h
      simp only [Except.error.injEq] at h
      exact h ▸ hm s (List.mem_cons_self s ss) t e' hg
    | ok r =>
      rw [hg] at h
      exact foe_error_ne_zero orderA ss ts e
        (fun c hc => hm c (List.mem_cons_of_mem s hc)) h

theorem goe_error_ne_zero {α : Type} (orderA : α → α → Int) :
    ∀ (t u : Tree α) (e : Int),
      getOrderEffect orderA t u = .error e → e ≠ 0 := by
  intro t
  induction t using Tree.inductionOn with
  | hl a =>
    intro u e h
    cases u with
    | leaf b =>
      rw [goe_leaf_leaf] at h
      by_cases hv : orderA a b = 0
      · rw [if_pos hv] at h; exact absurd h (by simp)
      · rw [if_neg hv] at h
        simp only [Except.error.injEq] at h
        exact h ▸ hv
    | branch b us =>
      rw [goe_leaf_branch] at h
      simp only [Except.error.injEq] at h
      omega
  | hb a ts ih =>
    intro u e h
    cases u with
    | leaf b =>
      rw [goe_branch_leaf] at h
      simp only [Except.error.injEq] at h
      omega
    | branch b us =>
      rw [goe_branch_branch] at h
      split_ifs at h with h1 h2 h3
      · simp only [Except.error.injEq] at h; exact h ▸ h1
      · simp only [Except.error.injEq] at h; omega
      · simp only [Except.error.injEq] at h; omega
      · exact foe_error_ne_zero orderA ts us e ih h

theorem getOrder_eq_zero_iff {α : Type} (orderA : α → α → Int)
    (t u : Tree α) :
    getOrder orderA t u = 0 ↔ getOrderEffect orderA t u = .ok () := by
  rw [getOrder]
  cases hg : getOrderEffect orderA t u with
  | error e =>
    have := goe_error_ne_zero orderA t u e hg
    simp [this]
  | ok r => simp

theorem getOrder_error_of_ne_zero {α : Type} (orderA : α → α → Int)
    {t u : Tree α} (h : getOrder orderA t u ≠ 0) :
    getOrderEffect orderA t u = .error (getOrder orderA t u) := by
  rw [getOrder] at h ⊢
  cases hg : getOrderEffect orderA t u with
  | error e => rfl
  | ok r => rw [hg] at h; exact absurd rfl h

theorem foe_error_pm {α : Type} (orderA : α → α → Int) :
    ∀ (ss ts : List (Tree α)) (e : Int),
      (∀ s ∈ ss, ∀ u e', getOrderEffect orderA s u = .error e' →
        e' = -1 ∨ e' = 1) →
      forestOrderEffect orderA ss ts = .error e → e = -1 ∨ e = 1
  | [], ts, e, _, h => by rw [foe_nil_left] at h; exact absurd h (by simp)
  | s :: ss, [], e, _, h => by rw [foe_nil_right] at h; exact absurd h (by simp)
  | s :: ss, t :: ts, e, hm, h => by
    rw [foe_cons_cons] at h
    cases hg : getOrderEffect orderA s t with
    | error e' =>
      rw [hg] at h
      simp only [Except.error.injEq] at h
      exact h ▸ hm s (List.mem_cons_self s ss) t e' hg
    | ok r =>
      rw [hg] at h
      exact foe_error_pm orderA ss ts e
        (fun c hc => hm c (List.mem_cons_of_mem s hc)) h

theorem goe_error_pm {α : Type} (orderA : α → α → Int)
    (hr : ∀ a b, orderA a b = -1 ∨ orderA a b = 0 ∨ orderA a b = 1) :
    ∀ (t u : Tree α) (e : Int),
      getOrderEffect orderA t u = .error e → e = -1 ∨ e = 1 := by
  intro t
  induction t using Tree.inductionOn with
  | hl a =>
    intro u e h
    cases u with
    | leaf b =>
      rw [goe_leaf_leaf] at h
      by_cases hv : orderA a b = 0
      · rw [if_pos hv] at h; exact absurd h (by simp)
      · rw [if_neg hv] at h
        simp only [Except.error.injEq] at h
        rcases hr a b with h' | h' | h' <;> omega
    | branch b us =>
      rw [goe_leaf_branch] at h
      simp only [Except.error.injEq] at h
      omega
  | hb a ts ih =>
    intro u e h
    cases u with
    | leaf b =>
      rw [goe_branch_leaf] at h
      simp only [Except.error.injEq] at h
      omega
    | branch b us =>
      rw [goe_branch_branch] at h
      split_ifs at h with h1 h2 h3
      · simp only [Except.error.injEq] at h
        rcases hr a b with h' | h' | h' <;> omega
      · simp only [Except.error.injEq] at h; omega
      · simp only [Except.error.injEq] at h; omega
      · exact foe_error_pm orderA ts us e ih h

theorem ordA_congr_left {α : Type} {orderA : α → α → Int}
    (hr : ∀ a b, orderA a b = -1 ∨ orderA a b = 0 ∨ orderA a b = 1)
    (hf : ∀ a b, orderA b a = -(orderA a b))
    (ht : ∀ a b c, orderA a b ≤ 0 → orderA b c ≤ 0 → orderA a c ≤ 0)
    {a b : α} (hab : orderA a b = 0) (c : α) : orderA a c = orderA b c := by
  have hba : orderA b a = 0 := by rw [hf]; omega
  have hcb : orderA c b = -(orderA b c) := hf b c
  have hca : orderA c a = -(orderA a c) := hf a c
  rcases hr b c with hbc | hbc | hbc
  · have h₁ : orderA a c ≤ 0 := ht a b c (by omega) (by omega)
    rcases hr a c with hac | hac | hac
    · omega
    · exfalso
      have := ht c a b (by omega) (by omega)
      omega
    · omega
  · have h₁ : orderA a c ≤ 0 := ht a b c (by omega) (by omega)
    have h₂ : orderA c a ≤ 0 := ht c b a (by omega) (by omega)
    omega
  · rcases hr a c with hac | hac | hac
    · exfalso
      have := ht b a c (by omega) (by omega)
      omega
    · exfalso
      have := ht b a c (by omega) (by omega)
      omega
    · omega

theorem ordA_congr_right {α : Type} {orderA : α → α → Int}
    (hr : ∀ a b, orderA a b = -1 ∨ orderA a b = 0 ∨ orderA a b = 1)
    (hf : ∀ a b, orderA b a = -(orderA a b))
    (ht : ∀ a b c, orderA a b ≤ 0 → orderA b c ≤ 0 → orderA a c ≤ 0)
    {a b : α} (hab : orderA a b = 0) (c : α) : orderA c a = orderA c b := by
  rw [hf a c, hf b c, ordA_congr_left hr hf ht hab c]

theorem foe_congr_left {α : Type} (orderA : α → α → Int) :
    ∀ ss us : List (Tree α),
      (∀ s ∈ ss, ∀ u, getOrderEffect orderA s u = .ok () →
        ∀ v, getOrderEffect orderA s v = getOrderEffect orderA u v) →
      ss.length = us.length → forestOrderEffect orderA ss us = .ok () →
      ∀ vs, forestOrderEffect orderA ss vs = forestOrderEffect orderA us vs
  | [], [], _, _, _, vs => rfl
  | [], u :: us, _, hlen, _, _ => by simp at hlen
  | s :: ss, [], _, hlen, _, _ => by simp at hlen
  | s :: ss, u :: us, hm, hlen, hok, vs => by
    rw [foe_cons_cons] at hok
    cases hg : getOrderEffect orderA s u with
    | error e => rw [hg] at hok; exact absurd hok (by simp)
    | ok r =>
      rw [hg] at hok
      cases vs with
      | nil => rw [foe_nil_right, foe_nil_right]
      | cons v vs =>
        rw [foe_cons_cons, foe_cons_cons]
        have hsu : getOrderEffect orderA s u = .ok () := by rw [hg]
        have hsv : getOrderEffect orderA s v = getOrderEffect orderA u v :=
          hm s (List.mem_cons_self s ss) u hsu v
        rw [hsv]
        cases hgv : getOrderEffect orderA u v with
        | error e => rfl
        | ok r2 =>
          exact foe_congr_left orderA ss us
            (fun c hc => hm c (List.mem_cons_of_mem s hc))
            (by simpa using hlen) hok vs

theorem goe_congr_left {α : Type} {orderA : α → α → Int}
    (hr : ∀ a b, orderA a b = -1 ∨ orderA a b = 0 ∨ orderA a b = 1)
    (hf : ∀ a b, orderA b a = -(orderA a b))
    (ht : ∀ a b c, orderA a b ≤ 0 → orderA b c ≤ 0 → orderA a c ≤ 0) :
    ∀ t u : Tree α, getOrderEffect orderA t u = .ok () →
      ∀ v, getOrderEffect orderA t v = getOrderEffect orderA u v := by
  intro t
  induction t using Tree.inductionOn with
  | hl a =>
    intro u hok v
    cases u with
    | leaf b =>
      rw [goe_leaf_leaf] at hok
      by_cases hv : orderA a b = 0
      · cases v with
        | leaf c =>
          rw [goe_leaf_leaf, goe_leaf_leaf, ordA_congr_left hr hf ht hv c]
        | branch c vs => rw [goe_leaf_branch, goe_leaf_branch]
      · rw [if_neg hv] at hok; exact absurd hok (by simp)
    | branch b us => rw [goe_leaf_branch] at hok; exact absurd hok (by simp)
  | hb a ts ih =>
    intro u hok v
    cases u with
    | leaf b => rw [goe_branch_leaf] at hok; exact absurd hok (by simp)
    | branch b us =>
      rw [goe_branch_branch] at hok
      split_ifs at hok with h1 h2 h3
      · have hab : orderA a b = 0 := not_not.mp h1
        have hlen : ts.length = us.length := by omega
        cases v with
        | leaf c => rw [goe_branch_leaf, goe_branch_leaf]
        | branch c vs =>
          rw [goe_branch_branch, goe_branch_branch,
            ordA_congr_left hr hf ht hab c, hlen,
            foe_congr_left orderA ts us ih hlen hok vs]

theorem fno_spec {α : Type} (orderA : α → α → Int) :
    ∀ ss ts : List (Tree α),
      firstNonZero ((ss.zip ts).map fun p => getOrder orderA p.1 p.2)
        = match forestOrderEffect orderA ss ts with
          | .ok _ => 0
          | .error e => e
  | [], ts => by rw [foe_nil_left]; simp [firstNonZero]
  | s :: ss, [] => by rw [foe_nil_right]; simp [firstNonZero]
  | s :: ss, t :: ts => by
    rw [List.zip_cons_cons, List.map_cons, firstNonZero, foe_cons_cons]
    by_cases h : getOrder orderA s t = 0
    · rw [if_pos h, (getOrder_eq_zero_iff orderA s t).mp h,
        fno_spec orderA ss ts]
    · rw [if_neg h, getOrder_error_of_ne_zero orderA h]

/-- C6: `getOrder` compares two leaves by their values only, orders a leaf
before a branch (in particular one with equal value) and a branch after a
leaf, compares branches first by value, then by forest length, then
lexicographically pairwise with the first non-equal pair or length
deciding, and always yields a plain determinate `-1 | 0 | 1`, never a
caller-visible error. -/
theorem getOrder_spec {α : Type} (orderA : α → α → Int)
    (hr : ∀ a b, orderA a b = -1 ∨ orderA a b = 0 ∨ orderA a b = 1) :
    (∀ a b : α, getOrder orderA (leaf a) (leaf b) = orderA a b) ∧
    (∀ (a b : α) (us : List (Tree α)),
      getOrder orderA (leaf a) (branch b us) = -1) ∧
    (∀ (a b : α) (ts : List (Tree α)),
      getOrder orderA (branch a ts) (leaf b) = 1) ∧
    (∀ (a b : α) (ts us : List (Tree α)), orderA a b ≠ 0 →
      getOrder orderA (branch a ts) (branch b us) = orderA a b) ∧
    (∀ (a b : α) (ts us : List (Tree α)), orderA a b = 0 →
      ts.length < us.length →
      getOrder orderA (branch a ts) (branch b us) = -1) ∧
    (∀ (a b : α) (ts us : List (Tree α)), orderA a b = 0 →
      us.length < ts.length →
      getOrder orderA (branch a ts) (branch b us) = 1) ∧
    (∀ (a b : α) (ts us : List (Tree α)), orderA a b = 0 →
      ts.length = us.length →
      getOrder orderA (branch a ts) (branch b us)
        = firstNonZero ((ts.zip us).map fun p => getOrder orderA p.1 p.2)) ∧
    (∀ t u : Tree α,
      getOrder orderA t u = -1 ∨ getOrder orderA t u = 0 ∨
        getOrder orderA t u = 1) := by
  refine ⟨?_, ?_, ?_, ?_, ?_, ?_, ?_, ?_⟩
  · intro a b
    show getOrder orderA (Tree.leaf a) (Tree.leaf b) = orderA a b
    by_cases h : orderA a b = 0
    · simp [getOrder, goe_leaf_leaf, h]
    · simp [getOrder, goe_leaf_leaf, h]
  · intro a b us
    show getOrder orderA (Tree.leaf a) (Tree.branch b us) = -1
    simp [getOrder, goe_leaf_branch]
  · intro a b ts
    show getOrder orderA (Tree.branch a ts) (Tree.leaf b) = 1
    simp [getOrder, goe_branch_leaf]
  · intro a b ts us h
    show getOrder orderA (Tree.branch a ts) (Tree.branch b us) = orderA a b
    simp [getOrder, goe_branch_branch, h]
  · intro a b ts us h0 hlt
    show getOrder orderA (Tree.branch a ts) (Tree.branch b us) = -1
    simp [getOrder, goe_branch_branch, h0, hlt]
  · intro a b ts us h0 hgt
    show getOrder orderA (Tree.branch a ts) (Tree.branch b us) = 1
    rw [getOrder, goe_branch_branch, if_neg (by simp [h0]),
      if_neg (by omega), if_pos hgt]
  · intro a b ts us h0 hlen
    show getOrder orderA (Tree.branch a ts) (Tree.branch b us) = _
    rw [fno_spec orderA ts us, getOrder, goe_branch_branch,
      if_neg (by simp [h0]), if_neg (by omega), if_neg (by omega)]
  · intro t u
    rw [getOrder]
    cases hg : getOrderEffect orderA t u with
    | ok r => simp
    | error e =>
      rcases goe_error_pm orderA hr t u e hg with h | h
      · simp [h]
      · simp [h]

/-- Witness for the C6 theorem: the order over naturals instantiated on
concrete trees, with the range hypothesis discharged for `natOrd`. -/
theorem getOrder_spec_witness :
    getOrder natOrd (leaf 1) (leaf 2) = natOrd 1 2 ∧
    getOrder natOrd (leaf 1) (branch 1 [leaf 2]) = -1 ∧
    getOrder natOrd (branch 1 [leaf 2]) (leaf 1) = 1 ∧
    getOrder natOrd (branch 1 [leaf 2]) (branch 1 [leaf 2, leaf 3]) = -1 := by
  have hr : ∀ a b : Nat, natOrd a b = -1 ∨ natOrd a b = 0 ∨ natOrd a b = 1 := by
    intro a b
    rw [natOrd]
    split_ifs <;> omega
  have h := getOrder_spec natOrd hr
  exact ⟨h.1 1 2, h.2.1 1 1 [leaf 2],
    h.2.2.1 1 1 [leaf 2],
    h.2.2.2.2.1 1 1 [leaf 2] [leaf 2, leaf 3] (by rw [natOrd]; omega)
      (by simp)⟩

theorem foe_flip {α : Type} (orderA : α → α → Int) :
    ∀ ss ts : List (Tree α),
      (∀ s ∈ ss, ∀ u, getOrderEffect orderA u s
        = negExcept (getOrderEffect orderA s u)) →
      forestOrderEffect orderA ts ss
        = negExcept (forestOrderEffect orderA ss ts)
  | [], ts, _ => by
    rw [foe_nil_left]
    cases ts with
    | nil => rfl
    | cons t ts => rw [foe_nil_right]; rfl
  | s :: ss, [], _ => by rw [foe_nil_right, foe_nil_left]; rfl
  | s :: ss, t :: ts, hm => by
    rw [foe_cons_cons, foe_cons_cons,
      hm s (List.mem_cons_self s ss) t]
    cases hg : getOrderEffect orderA s t with
    | error e => rfl
    | ok r =>
      show forestOrderEffect orderA ts ss = _
      rw [foe_flip orderA ss ts fun c hc => hm c (List.mem_cons_of_mem s hc)]

theorem goe_flip {α : Type} {orderA : α → α → Int}
    (hf : ∀ a b, orderA b a = -(orderA a b)) :
    ∀ t u : Tree α,
      getOrderEffect orderA u t = negExcept (getOrderEffect orderA t u) := by
  intro t
  induction t using Tree.inductionOn with
  | hl a =>
    intro u
    cases u with
    | leaf b =>
      rw [goe_leaf_leaf, goe_leaf_leaf, hf a b]
      by_cases hv : orderA a b = 0
      · rw [if_pos hv, if_pos (by omega)]; rfl
      · rw [if_neg hv, if_neg (by omega)]; rfl
    | branch b us =>
      rw [goe_leaf_branch, goe_branch_leaf]
      show Except.error 1 = Except.error (-(-1))
      norm_num
  | hb a ts ih =>
    intro u
    cases u with
    | leaf b =>
      rw [goe_branch_leaf, goe_leaf_branch]
      show Except.error (-1) = Except.error (-(1: Int))
      norm_num
    | branch b us =>
      rw [goe_branch_branch, goe_branch_branch, hf a b]
      by_cases hv : orderA a b = 0
      · rw [if_neg (show ¬(-(orderA a b) ≠ 0) from by omega),
          if_neg (show ¬(orderA a b ≠ 0) from by omega)]
        rcases Nat.lt_trichotomy ts.length us.length with hl | hl | hl
        · rw [if_neg (show ¬(us.length < ts.length) from by omega),
            if_pos hl, if_pos hl]
          simp [negExcept]
        · rw [if_neg (show ¬(us.length < ts.length) from by omega),
            if_neg (show ¬(ts.length < us.length) from by omega),
            if_neg (show ¬(ts.length < us.length) from by omega),
            if_neg (show ¬(us.length < ts.length) from by omega),
            foe_flip orderA ts us ih]
        · rw [if_pos hl,
            if_neg (show ¬(ts.length < us.length) from by omega),
            if_pos hl]
          simp [negExcept]
      · rw [if_pos (show -(orderA a b) ≠ 0 from by omega), if_pos hv]
        rfl

theorem getOrder_flip {α : Type} {orderA : α → α → Int}
    (hf : ∀ a b, orderA b a = -(orderA a b)) (t u : Tree α) :
    getOrder orderA u t = -(getOrder orderA t u) := by
  rw [getOrder, getOrder, goe_flip hf t u]
  cases hg : getOrderEffect orderA t u with
  | error e => rfl
  | ok r => rfl

theorem getOrder_leaf_leaf {α : Type} (orderA : α → α → Int) (a b : α) :
    getOrder orderA (Tree.leaf a) (Tree.leaf b) = orderA a b := by
  by_cases h : orderA a b = 0
  · simp [getOrder, goe_leaf_leaf, h]
  · simp [getOrder, goe_leaf_leaf, h]

theorem getOrder_leaf_branch {α : Type} (orderA : α → α → Int) (a b : α)
    (us : List (Tree α)) :
    getOrder orderA (Tree.leaf a) (Tree.branch b us) = -1 := by
  simp [getOrder, goe_leaf_branch]

theorem getOrder_branch_leaf {α : Type} (orderA : α → α → Int) (a b : α)
    (ts : List (Tree α)) :
    getOrder orderA (Tree.branch a ts) (Tree.leaf b) = 1 := by
  simp [getOrder, goe_branch_leaf]

theorem getOrder_bb_value_ne {α : Type} (orderA : α → α → Int) {a b : α}
    (ts us : List (Tree α)) (h : orderA a b ≠ 0) :
    getOrder orderA (Tree.branch a ts) (Tree.branch b us) = orderA a b := by
  simp [getOrder, goe_branch_branch, h]

theorem getOrder_bb_lt {α : Type} (orderA : α → α → Int) {a b : α}
    {ts us : List (Tree α)} (hx : orderA a b = 0)
    (h : ts.length < us.length) :
    getOrder orderA (Tree.branch a ts) (Tree.branch b us) = -1 := by
  simp [getOrder, goe_branch_branch, hx, h]

theorem getOrder_bb_gt {α : Type} (orderA : α → α → Int) {a b : α}
    {ts us : List (Tree α)} (hx : orderA a b = 0)
    (h : us.length < ts.length) :
    getOrder orderA (Tree.branch a ts) (Tree.branch b us) = 1 := by
  rw [getOrder, goe_branch_branch, if_neg (by simp [hx]),
    if_neg (by omega), if_pos h]

theorem getOrder_bb_eq {α : Type} (orderA : α → α → Int) {a b : α}
    {ts us : List (Tree α)} (hx : orderA a b = 0)
    (h : ts.length = us.length) :
    getOrder orderA (Tree.branch a ts) (Tree.branch b us)
      = match forestOrderEffect orderA ts us with
        | .ok _ => 0
        | .error e => e := by
  rw [getOrder, goe_branch_branch, if_neg (by simp [hx]),
    if_neg (by omega), if_neg (by omega)]

theorem goe_congr_right {α : Type} {orderA : α → α → Int}
    (hr : ∀ a b, orderA a b = -1 ∨ orderA a b = 0 ∨ orderA a b = 1)
    (hf : ∀ a b, orderA b a = -(orderA a b))
    (ht : ∀ a b c, orderA a b ≤ 0 → orderA b c ≤ 0 → orderA a c ≤ 0)
    {u v : Tree α} (hok : getOrderEffect orderA u v = .ok ()) (s : Tree α) :
    getOrderEffect orderA s v = getOrderEffect orderA s u := by
  have hvu : getOrderEffect orderA v u = .ok () := by
    rw [goe_flip hf u v, hok]; rfl
  have h := goe_congr_left hr hf ht v u hvu s
  rw [goe_flip hf v s, h, ← goe_flip hf u s]

theorem getOrder_congr_left {α : Type} {orderA : α → α → Int}
    (hr : ∀ a b, orderA a b = -1 ∨ orderA a b = 0 ∨ orderA a b = 1)
    (hf : ∀ a b, orderA b a = -(orderA a b))
    (ht : ∀ a b c, orderA a b ≤ 0 → orderA b c ≤ 0 → orderA a c ≤ 0)
    {t u : Tree α} (hok : getOrderEffect orderA t u = .ok ()) (v : Tree α) :
    getOrder orderA t v = getOrder orderA u v := by
  rw [getOrder, getOrder, goe_congr_left hr hf ht t u hok v]

theorem getOrder_congr_right {α : Type} {orderA : α → α → Int}
    (hr : ∀ a b, orderA a b = -1 ∨ orderA a b = 0 ∨ orderA a b = 1)
    (hf : ∀ a b, orderA b a = -(orderA a b))
    (ht : ∀ a b c, orderA a b ≤ 0 → orderA b c ≤ 0 → orderA a c ≤ 0)
    {u v : Tree α} (hok : getOrderEffect orderA u v = .ok ()) (s : Tree α) :
    getOrder orderA s v = getOrder orderA s u := by
  rw [getOrder, getOrder, goe_congr_right hr hf ht hok s]

theorem foe_trans {α : Type} {orderA : α → α → Int}
    (hr : ∀ a b, orderA a b = -1 ∨ orderA a b = 0 ∨ orderA a b = 1)
    (hf : ∀ a b, orderA b a = -(orderA a b))
    (ht : ∀ a b c, orderA a b ≤ 0 → orderA b c ≤ 0 → orderA a c ≤ 0) :
    ∀ ss us vs : List (Tree α),
      (∀ s ∈ ss, ∀ u v, getOrder orderA s u ≤ 0 → getOrder orderA u v ≤ 0 →
        getOrder orderA s v ≤ 0) →
      ss.length = us.length → us.length = vs.length →
      (∀ e, forestOrderEffect orderA ss us = .error e → e ≤ 0) →
      (∀ e, forestOrderEffect orderA us vs = .error e → e ≤ 0) →
      (∀ e, forestOrderEffect orderA ss vs = .error e → e ≤ 0)
  | [], [], [], _, _, _, _, _ => by
    intro e he
    rw [foe_nil_left] at he
    exact absurd he (by simp)
  | [], u :: us, vs, _, hl1, _, _, _ => by simp at hl1
  | s :: ss, [], vs, _, hl1, _, _, _ => by simp at hl1
  | s :: ss, u :: us, [], _, _, hl2, _, _ => by simp at hl2
  | s :: ss, u :: us, v :: vs, hm, hl1, hl2, h1, h2 => by
    intro e he
    rw [foe_cons_cons] at he
    cases hsu : getOrderEffect orderA s u with
    | ok r1 =>
      have hsu' : getOrderEffect orderA s u = .ok () := by rw [hsu]
      have hsv : getOrderEffect orderA s v = getOrderEffect orderA u v :=
        goe_congr_left hr hf ht s u hsu' v
      cases huv : getOrderEffect orderA u v with
      | error e2 =>
        rw [hsv, huv] at he
        simp only [Except.error.injEq] at he
        refine he ▸ h2 e2 ?_
        rw [foe_cons_cons, huv]
      | ok r2 =>
        rw [hsv, huv] at he
        refine foe_trans hr hf ht ss us vs
          (fun c hc => hm c (List.mem_cons_of_mem s hc))
          (by simpa using hl1) (by simpa using hl2)
          (fun e' he' => h1 e' (by rw [foe_cons_cons, hsu]; exact he'))
          (fun e' he' => h2 e' (by rw [foe_cons_cons, huv]; exact he'))
          e he
    | error e1 =>
      have he1 : e1 ≤ 0 := h1 e1 (by rw [foe_cons_cons, hsu])
      have he1' : e1 ≠ 0 := goe_error_ne_zero orderA s u e1 hsu
      cases huv : getOrderEffect orderA u v with
      | ok r2 =>
        have huv' : getOrderEffect orderA u v = .ok () := by rw [huv]
        have hsv : getOrderEffect orderA s v = getOrderEffect orderA s u :=
          goe_congr_right hr hf ht huv' s
        rw [hsv, hsu] at he
        simp only [Except.error.injEq] at he
        omega
      | error e2 =>
        have he2 : e2 ≤ 0 := h2 e2 (by rw [foe_cons_cons, huv])
        have he2' : e2 ≠ 0 := goe_error_ne_zero orderA u v e2 huv
        have hcmp1 : getOrder orderA s u = e1 := by rw [getOrder, hsu]
        have hcmp2 : getOrder orderA u v = e2 := by rw [getOrder, huv]
        have hle : getOrder orderA s v ≤ 0 :=
          hm s (List.mem_cons_self s ss) u v (by omega) (by omega)
        have hne : getOrder orderA s v ≠ 0 := by
          intro h0
          have hok := (getOrder_eq_zero_iff orderA s v).mp h0
          have h' := goe_congr_left hr hf ht s v hok u
          have hvu : getOrderEffect orderA v u
              = negExcept (getOrderEffect orderA u v) := goe_flip hf u v
          rw [huv] at hvu
          rw [hsu, hvu] at h'
          simp only [negExcept, Except.error.injEq] at h'
          omega
        have herr := getOrder_error_of_ne_zero orderA hne
        rw [herr] at he
        simp only [Except.error.injEq] at he
        omega

theorem getOrder_trans {α : Type} {orderA : α → α → Int}
    (hr : ∀ a b, orderA a b = -1 ∨ orderA a b = 0 ∨ orderA a b = 1)
    (hf : ∀ a b, orderA b a = -(orderA a b))
    (ht : ∀ a b c, orderA a b ≤ 0 → orderA b c ≤ 0 → orderA a c ≤ 0) :
    ∀ t u v : Tree α, getOrder orderA t u ≤ 0 → getOrder orderA u v ≤ 0 →
      getOrder orderA t v ≤ 0 := by
  intro t
  induction t using Tree.inductionOn with
  | hl a =>
    intro u v h1 h2
    cases v with
    | branch c vs => rw [getOrder_leaf_branch]; omega
    | leaf c =>
      cases u with
      | branch b us => rw [getOrder_branch_leaf] at h2; omega
      | leaf b =>
        rw [getOrder_leaf_leaf] at h1 h2 ⊢
        exact ht a b c h1 h2
  | hb a ts ih =>
    intro u v h1 h2
    cases u with
    | leaf b => rw [getOrder_branch_leaf] at h1; omega
    | branch b us =>
      cases v with
      | leaf c => rw [getOrder_branch_leaf] at h2; omega
      | branch c vs =>
        by_cases hz1 : getOrder orderA (Tree.branch a ts)
            (Tree.branch b us) = 0
        · have hok := (getOrder_eq_zero_iff orderA _ _).mp hz1
          rw [getOrder_congr_left hr hf ht hok (Tree.branch c vs)]
          exact h2
        · by_cases hz2 : getOrder orderA (Tree.branch b us)
              (Tree.branch c vs) = 0
          · have hok := (getOrder_eq_zero_iff orderA _ _).mp hz2
            rw [getOrder_congr_right hr hf ht hok (Tree.branch a ts)]
            exact h1
          · by_cases hx : orderA a b = 0
            · by_cases hy : orderA b c = 0
              · -- both values equal: length then lexicographic stage
                have hz : orderA a c = 0 := by
                  rw [ordA_congr_left hr hf ht hx c]; exact hy
                have hle1 : ts.length ≤ us.length := by
                  by_contra hgt
                  rw [getOrder_bb_gt orderA hx (by omega)] at h1
                  omega
                have hle2 : us.length ≤ vs.length := by
                  by_contra hgt
                  rw [getOrder_bb_gt orderA hy (by omega)] at h2
                  omega
                rcases Nat.lt_trichotomy ts.length vs.length with hl | hl | hl
                · rw [getOrder_bb_lt orderA hz hl]; omega
                · -- all lengths equal: the forests decide everything
                  have hlen1 : ts.length = us.length := by omega
                  have hlen2 : us.length = vs.length := by omega
                  have hfo1 : ∀ e, forestOrderEffect orderA ts us
                      = .error e → e ≤ 0 := by
                    intro e hfe
                    rw [getOrder_bb_eq orderA hx hlen1, hfe] at h1
                    exact h1
                  have hfo2 : ∀ e, forestOrderEffect orderA us vs
                      = .error e → e ≤ 0 := by
                    intro e hfe
                    rw [getOrder_bb_eq orderA hy hlen2, hfe] at h2
                    exact h2
                  have hfo3 := foe_trans hr hf ht ts us vs ih hlen1 hlen2
                    hfo1 hfo2
                  rw [getOrder_bb_eq orderA hz hl]
                  cases hfv : forestOrderEffect orderA ts vs with
                  | ok r => simp
                  | error e => simpa using hfo3 e hfv
                · omega
              · -- second comparison strict by value
                have hy' : orderA b c = -1 := by
                  rw [getOrder_bb_value_ne orderA us vs hy] at h2
                  rcases hr b c with h' | h' | h' <;> omega
                have hz : orderA a c = orderA b c :=
                  ordA_congr_left hr hf ht hx c
                rw [getOrder_bb_value_ne orderA ts vs (by omega)]
                omega
            · -- first comparison strict by value
              have hx' : orderA a b = -1 := by
                rw [getOrder_bb_value_ne orderA ts us hx] at h1
                rcases hr a b with h' | h' | h' <;> omega
              by_cases hy : orderA b c = 0
              · have hz : orderA a c = orderA a b := by
                  have := ordA_congr_right hr hf ht hy a
                  omega
                rw [getOrder_bb_value_ne orderA ts vs (by omega)]
                omega
              · have hy' : orderA b c = -1 := by
                  rw [getOrder_bb_value_ne orderA us vs hy] at h2
                  rcases hr b c with h' | h' | h' <;> omega
                have hz0 : orderA a c ≤ 0 := ht a b c (by omega) (by omega)
                have hzne : orderA a c ≠ 0 := by
                  intro hz
                  have h' := ordA_congr_left hr hf ht hz b
                  have h'' := hf b c
                  omega
                rw [getOrder_bb_value_ne orderA ts vs hzne]
                omega

theorem destruct_fst {α : Type} (u : Tree α) :
    (destruct u).1 = getValue u := by cases u <;> rfl

theorem destruct_snd {α : Type} (u : Tree α) :
    (destruct u).2 = getForest u := by cases u <;> rfl

theorem getForest_leaf {α : Type} (a : α) :
    getForest (Tree.leaf a) = [] := rfl

theorem getForest_branch {α : Type} (a : α) (ts : List (Tree α)) :
    getForest (Tree.branch a ts) = ts := rfl

theorem gee_leaf {α : Type} (equalsA : α → α → Bool) (a : α) (that : Tree α) :
    getEquivalenceEffect equalsA (Tree.leaf a) that
      = if equalsA a (destruct that).1 = false
            ∨ 0 ≠ (destruct that).2.length then .error ()
        else .ok () := rfl

theorem gee_branch {α : Type} (equalsA : α → α → Bool) (a : α)
    (sf : List (Tree α)) (that : Tree α) :
    getEquivalenceEffect equalsA (Tree.branch a sf) that
      = if equalsA a (destruct that).1 = false
            ∨ sf.length ≠ (destruct that).2.length then .error ()
        else forestEquivalenceEffect equalsA sf (destruct that).2 := rfl

theorem fee_nil_left {α : Type} (equalsA : α → α → Bool)
    (ts : List (Tree α)) :
    forestEquivalenceEffect equalsA [] ts = .ok () := by cases ts <;> rfl

theorem fee_cons_nil {α : Type} (equalsA : α → α → Bool) (s : Tree α)
    (ss : List (Tree α)) :
    forestEquivalenceEffect equalsA (s :: ss) [] = .ok () := rfl

theorem fee_cons_cons {α : Type} (equalsA : α → α → Bool) (s t : Tree α)
    (ss ts : List (Tree α)) :
    forestEquivalenceEffect equalsA (s :: ss) (t :: ts)
      = match getEquivalenceEffect equalsA s t with
        | .error e => .error e
        | .ok _ => forestEquivalenceEffect equalsA ss ts := rfl

theorem exceptUnit_ext {x y : Except Unit Unit}
    (h : x = .ok () ↔ y = .ok ()) : x = y := by
  cases x with
  | ok a =>
    cases a
    cases y with
    | ok b => cases b; rfl
    | error b => cases b; exact absurd (h.mp rfl) (by simp)
  | error a =>
    cases a
    cases y with
    | ok b => cases b; exact absurd (h.mpr rfl) (by simp)
    | error b => cases b; rfl

theorem gee_ok_iff {α : Type} (equalsA : α → α → Bool) (t u : Tree α) :
    getEquivalenceEffect equalsA t u = .ok () ↔
      (equalsA (getValue t) (getValue u) = true ∧
       (getForest t).length = (getForest u).length ∧
       forestEquivalenceEffect equalsA (getForest t) (getForest u)
         = .ok ()) := by
  cases t with
  | leaf a =>
    rw [gee_leaf, destruct_fst, destruct_snd, getForest_leaf]
    by_cases hc : equalsA a (getValue u) = false ∨ 0 ≠ (getForest u).length
    · rw [if_pos hc]
      constructor
      · intro h; exact absurd h (by simp)
      · rintro ⟨hval, hlen, _⟩
        have hval' : equalsA a (getValue u) = true := hval
        rcases hc with hc | hc
        · rw [hval'] at hc; exact absurd hc (by simp)
        · exact absurd (by simpa using hlen) hc
    · rw [if_neg hc]
      push_neg at hc
      constructor
      · intro _
        refine ⟨by simpa using hc.1, by simpa using hc.2, ?_⟩
        rw [fee_nil_left]
      · intro _; rfl
  | branch a sf =>
    rw [gee_branch, destruct_fst, destruct_snd, getForest_branch]
    by_cases hc : equalsA a (getValue u) = false
        ∨ sf.length ≠ (getForest u).length
    · rw [if_pos hc]
      constructor
      · intro h; exact absurd h (by simp)
      · rintro ⟨hval, hlen, _⟩
        have hval' : equalsA a (getValue u) = true := hval
        rcases hc with hc | hc
        · rw [hval'] at hc; exact absurd hc (by simp)
        · exact absurd hlen hc
    · rw [if_neg hc]
      push_neg at hc
      constructor
      · intro h
        exact ⟨by simpa using hc.1, hc.2, h⟩
      · rintro ⟨_, _, h⟩; exact h

theorem fee_ok_symm {α : Type} (equalsA : α → α → Bool) :
    ∀ ss ts : List (Tree α),
      (∀ s ∈ ss, ∀ u, getEquivalenceEffect equalsA s u = .ok () ↔
        getEquivalenceEffect equalsA u s = .ok ()) →
      (forestEquivalenceEffect equalsA ss ts = .ok () ↔
       forestEquivalenceEffect equalsA ts ss = .ok ())
  | [], ts, _ => by
    rw [fee_nil_left]
    cases ts with
    | nil => rw [fee_nil_left]
    | cons t ts => rw [fee_cons_nil]
  | s :: ss, [], _ => by rw [fee_cons_nil, fee_nil_left]
  | s :: ss, t :: ts, hm => by
    rw [fee_cons_cons, fee_cons_cons]
    have hh := hm s (List.mem_cons_self s ss) t
    have hrest := fee_ok_symm equalsA ss ts
      fun c hc => hm c (List.mem_cons_of_mem s hc)
    cases hst : getEquivalenceEffect equalsA s t with
    | error e =>
      cases e
      cases hts : getEquivalenceEffect equalsA t s with
      | error e2 => cases e2; simp
      | ok r =>
        cases r
        exact absurd (hh.mpr hts) (by simp [hst])
    | ok r =>
      cases r
      rw [hh.mp hst]
      exact hrest

theorem gee_ok_symm {α : Type} {equalsA : α → α → Bool}
    (hs : ∀ a b, equalsA a b = equalsA b a) :
    ∀ t u : Tree α,
      getEquivalenceEffect equalsA t u = .ok () ↔
      getEquivalenceEffect equalsA u t = .ok () := by
  intro t
  induction t using Tree.inductionOn with
  | hl a =>
    intro u
    rw [gee_ok_iff, gee_ok_iff, hs]
    constructor
    · rintro ⟨h1, h2, _⟩
      refine ⟨h1, h2.symm, ?_⟩
      rw [getForest_leaf] at h2
      have : getForest u = [] := List.length_eq_zero.mp h2.symm
      rw [this, fee_nil_left]
    · rintro ⟨h1, h2, _⟩
      refine ⟨h1, h2.symm, ?_⟩
      rw [getForest_leaf, fee_nil_left]
  | hb a ts ih =>
    intro u
    rw [gee_ok_iff, gee_ok_iff, hs]
    have hfe := fee_ok_symm equalsA ts (getForest u) fun c hc => ih c hc
    constructor
    · rintro ⟨h1, h2, h3⟩
      exact ⟨h1, h2.symm, hfe.mp (by rw [← getForest_branch a ts]; exact h3)⟩
    · rintro ⟨h1, h2, h3⟩
      exact ⟨h1, h2.symm, hfe.mpr h3⟩

theorem fee_ok_refl {α : Type} (equalsA : α → α → Bool) :
    ∀ ts : List (Tree α),
      (∀ s ∈ ts, getEquivalenceEffect equalsA s s = .ok ()) →
      forestEquivalenceEffect equalsA ts ts = .ok ()
  | [], _ => by rw [fee_nil_left]
  | t :: ts, hm => by
    rw [fee_cons_cons, hm t (List.mem_cons_self t ts)]
    exact fee_ok_refl equalsA ts fun c hc => hm c (List.mem_cons_of_mem t hc)

theorem gee_ok_refl {α : Type} {equalsA : α → α → Bool}
    (he : ∀ a, equalsA a a = true) :
    ∀ t : Tree α, getEquivalenceEffect equalsA t t = .ok () := by
  intro t
  induction t using Tree.inductionOn with
  | hl a => rw [gee_ok_iff]; exact ⟨he a, rfl, by rw [getForest_leaf, fee_nil_left]⟩
  | hb a ts ih =>
    rw [gee_ok_iff]
    exact ⟨he a, rfl, by rw [getForest_branch]; exact fee_ok_refl equalsA ts ih⟩

theorem fee_ok_trans {α : Type} (equalsA : α → α → Bool) :
    ∀ ss us vs : List (Tree α),
      (∀ s ∈ ss, ∀ u v, getEquivalenceEffect equalsA s u = .ok () →
        getEquivalenceEffect equalsA u v = .ok () →
        getEquivalenceEffect equalsA s v = .ok ()) →
      ss.length = us.length →
      forestEquivalenceEffect equalsA ss us = .ok () →
      forestEquivalenceEffect equalsA us vs = .ok () →
      forestEquivalenceEffect equalsA ss vs = .ok ()
  | [], _, vs, _, _, _, _ => by rw [fee_nil_left]
  | s :: ss, [], vs, _, hl1, _, _ => by simp at hl1
  | s :: ss, u :: us, [], _, _, _, _ => by rw [fee_cons_nil]
  | s :: ss, u :: us, v :: vs, hm, hl1, h1, h2 => by
    rw [fee_cons_cons] at h1 h2 ⊢
    cases hsu : getEquivalenceEffect equalsA s u with
    | error e => rw [hsu] at h1; exact absurd h1 (by simp)
    | ok r =>
      cases r
      rw [hsu] at h1
      cases huv : getEquivalenceEffect equalsA u v with
      | error e => rw [huv] at h2; exact absurd h2 (by simp)
      | ok r2 =>
        cases r2
        rw [huv] at h2
        rw [hm s (List.mem_cons_self s ss) u v hsu huv]
        exact fee_ok_trans equalsA ss us vs
          (fun c hc => hm c (List.mem_cons_of_mem s hc))
          (by simpa using hl1) h1 h2

theorem gee_ok_trans {α : Type} {equalsA : α → α → Bool}
    (htr : ∀ a b c, equalsA a b = true → equalsA b c = true →
      equalsA a c = true) :
    ∀ t u v : Tree α,
      getEquivalenceEffect equalsA t u = .ok () →
      getEquivalenceEffect equalsA u v = .ok () →
      getEquivalenceEffect equalsA t v = .ok () := by
  intro t
  induction t using Tree.inductionOn with
  | hl a =>
    intro u v h1 h2
    rw [gee_ok_iff] at h1 h2 ⊢
    refine ⟨htr _ _ _ h1.1 h2.1, by rw [getForest_leaf] at h1 ⊢; omega, ?_⟩
    rw [getForest_leaf, fee_nil_left]
  | hb a ts ih =>
    intro u v h1 h2
    rw [gee_ok_iff] at h1 h2 ⊢
    refine ⟨htr _ _ _ h1.1 h2.1,
      by rw [getForest_branch] at h1 ⊢; omega, ?_⟩
    rw [getForest_branch] at h1 ⊢
    exact fee_ok_trans equalsA ts (getForest u) (getForest v) ih
      h1.2.1 h1.2.2 h2.2.2

theorem getEquivalence_true_iff {α : Type} (equalsA : α → α → Bool)
    (t u : Tree α) :
    getEquivalence equalsA t u = true ↔
      getEquivalenceEffect equalsA t u = .ok () := by
  rw [getEquivalence]
  cases h : getEquivalenceEffect equalsA t u with
  | error e => cases e; simp
  | ok r => cases r; simp

theorem fee_of_foe_ok {α : Type} (orderA : α → α → Int) :
    ∀ ss ts : List (Tree α),
      (∀ s ∈ ss, ∀ u, getOrderEffect orderA s u = .ok () →
        getEquivalenceEffect (fun a b => decide (orderA a b = 0)) s u
          = .ok ()) →
      forestOrderEffect orderA ss ts = .ok () →
      forestEquivalenceEffect (fun a b => decide (orderA a b = 0)) ss ts
        = .ok ()
  | [], ts, _, _ => by rw [fee_nil_left]
  | s :: ss, [], _, _ => by rw [fee_cons_nil]
  | s :: ss, t :: ts, hm, h => by
    rw [foe_cons_cons] at h
    cases hst : getOrderEffect orderA s t with
    | error e => rw [hst] at h; exact absurd h (by simp)
    | ok r =>
      cases r
      rw [hst] at h
      rw [fee_cons_cons, hm s (List.mem_cons_self s ss) t hst]
      exact fee_of_foe_ok orderA ss ts
        (fun c hc => hm c (List.mem_cons_of_mem s hc)) h

theorem gee_of_goe_ok {α : Type} (orderA : α → α → Int) :
    ∀ t u : Tree α, getOrderEffect orderA t u = .ok () →
      getEquivalenceEffect (fun a b => decide (orderA a b = 0)) t u
        = .ok () := by
  intro t
  induction t using Tree.inductionOn with
  | hl a =>
    intro u h
    cases u with
    | leaf b =>
      rw [goe_leaf_leaf] at h
      by_cases hv : orderA a b = 0
      · rw [gee_ok_iff]
        refine ⟨by simpa using hv, rfl, ?_⟩
        rw [getForest_leaf, fee_nil_left]
      · rw [if_neg hv] at h; exact absurd h (by simp)
    | branch b us => rw [goe_leaf_branch] at h; exact absurd h (by simp)
  | hb a ts ih =>
    intro u h
    cases u with
    | leaf b => rw [goe_branch_leaf] at h; exact absurd h (by simp)
    | branch b us =>
      rw [goe_branch_branch] at h
      split_ifs at h with h1 h2 h3
      · have hab : orderA a b = 0 := not_not.mp h1
        rw [gee_ok_iff]
        refine ⟨by simpa using hab, by rw [getForest_branch, getForest_branch]; omega, ?_⟩
        rw [getForest_branch, getForest_branch]
        exact fee_of_foe_ok orderA ts us ih h

/-- C7: for a reflexive, symmetric, transitive element equivalence the tree
equivalence from `getEquivalence` is reflexive, symmetric and transitive,
and for a total element order the tree order from `getOrder` is total,
antisymmetric (mutually ordered-before-or-equal trees are equivalent
under the order-induced element equivalence) and transitive. -/
theorem equivalence_order_laws {α : Type} (equalsA : α → α → Bool)
    (orderA : α → α → Int)
    (he : ∀ a, equalsA a a = true)
    (hs : ∀ a b, equalsA a b = equalsA b a)
    (htr : ∀ a b c, equalsA a b = true → equalsA b c = true →
      equalsA a c = true)
    (hr : ∀ a b, orderA a b = -1 ∨ orderA a b = 0 ∨ orderA a b = 1)
    (hf : ∀ a b, orderA b a = -(orderA a b))
    (ht : ∀ a b c, orderA a b ≤ 0 → orderA b c ≤ 0 → orderA a c ≤ 0) :
    (∀ t : Tree α, getEquivalence equalsA t t = true) ∧
    (∀ t u : Tree α, getEquivalence equalsA t u = getEquivalence equalsA u t) ∧
    (∀ t u v : Tree α, getEquivalence equalsA t u = true →
      getEquivalence equalsA u v = true → getEquivalence equalsA t v = true) ∧
    (∀ t u : Tree α, getOrder orderA t u ≤ 0 ∨ getOrder orderA u t ≤ 0) ∧
    (∀ t u : Tree α, getOrder orderA t u ≤ 0 → getOrder orderA u t ≤ 0 →
      getEquivalence (fun a b => decide (orderA a b = 0)) t u = true) ∧
    (∀ t u v : Tree α, getOrder orderA t u ≤ 0 → getOrder orderA u v ≤ 0 →
      getOrder orderA t v ≤ 0) := by
  refine ⟨?_, ?_, ?_, ?_, ?_, getOrder_trans hr hf ht⟩
  · intro t
    rw [getEquivalence_true_iff]
    exact gee_ok_refl he t
  · intro t u
    rw [getEquivalence, getEquivalence, exceptUnit_ext (gee_ok_symm hs t u)]
  · intro t u v h1 h2
    rw [getEquivalence_true_iff] at h1 h2 ⊢
    exact gee_ok_trans htr t u v h1 h2
  · intro t u
    have := getOrder_flip hf t u
    omega
  · intro t u h1 h2
    have hflip := getOrder_flip hf t u
    have hz : getOrder orderA t u = 0 := by omega
    rw [getEquivalence_true_iff]
    exact gee_of_goe_ok orderA t u ((getOrder_eq_zero_iff orderA t u).mp hz)

theorem natOrd_range (a b : Nat) :
    natOrd a b = -1 ∨ natOrd a b = 0 ∨ natOrd a b = 1 := by
  rw [natOrd]; split_ifs <;> omega

theorem natOrd_flip (a b : Nat) : natOrd b a = -(natOrd a b) := by
  rw [natOrd, natOrd]; split_ifs <;> omega

theorem natOrd_trans (a b c : Nat) :
    natOrd a b ≤ 0 → natOrd b c ≤ 0 → natOrd a c ≤ 0 := by
  rw [natOrd, natOrd, natOrd]; split_ifs <;> omega

theorem natEq_refl (a : Nat) : natEq a a = true := by simp [natEq]

theorem natEq_symm (a b : Nat) : natEq a b = natEq b a := by
  by_cases h : a = b
  · rw [h]
  · rw [natEq, natEq]
    simp [h, Ne.symm h]

theorem natEq_trans (a b c : Nat) :
    natEq a b = true → natEq b c = true → natEq a c = true := by
  rw [natEq, natEq, natEq]
  intro h1 h2
  simp only [Nat.beq_eq_true_eq] at h1 h2 ⊢
  omega

/-- Witness for the C7 theorem: the laws instantiated with the natural
equivalence and order on concrete trees. -/
theorem equivalence_order_laws_witness :
    getEquivalence natEq (branch 1 [leaf 2]) (branch 1 [leaf 2]) = true ∧
    (getOrder natOrd (leaf 1) (branch 1 [leaf 2]) ≤ 0 ∨
     getOrder natOrd (branch 1 [leaf 2]) (leaf 1) ≤ 0) := by
  have h := equivalence_order_laws natEq natOrd natEq_refl natEq_symm
    natEq_trans natOrd_range natOrd_flip natOrd_trans
  exact ⟨h.1 (branch 1 [leaf 2]),
    h.2.2.2.1 (leaf 1) (branch 1 [leaf 2])⟩

end EffectTree
